import Mathlib

/-!
Verification model of the JAnim timeline/item core.

This file embeds, in Lean, the parts of the repository that the checked
properties are about:

* `Timeline.schedule` / `Timeline.forward` (src/janim/anims/timeline.py),
  with virtual times modelled as rationals and Python's `round(x, 4)`
  modelled as round-half-to-even at 4 decimal places;
* `Cmpt_Rgbas` (src/janim/components/rgbas.py): rgba rows are quadruples of
  rationals, the `UniqueNparray` storage is modelled as a storage id plus
  the stored rows (`is_share` compares storage ids, `set` allocates a fresh
  id);
* `Item` (src/janim/items/item.py): component maps, copy / store / become /
  not_changed / interpolate, with Python object identity modelled by
  unique numeric ids handed out by an explicit fresh-id counter;
* the display bookkeeping `Timeline._show` / `Timeline._hide` and the
  history machinery `Timeline._detect_change` / `Timeline.item_current`
  (src/janim/anims/timeline.py), where the `History` container of
  janim/utils/data.py is modelled from the spec because that file is not
  part of the provided sources.
-/

namespace JanimModel

/-! ## Scheduler model: `Timeline.schedule` and `Timeline.forward` -/

/-- Python `round` at integer outputs: round half to even, on rationals. -/
def pyRoundInt (q : ℚ) : ℤ :=
  let f : ℤ := ⌊q⌋
  let r : ℚ := q - (f : ℚ)
  if r < 1/2 then f
  else if 1/2 < r then f + 1
  else if Even f then f else f + 1

/-- Python `round(x, 4)` used by `Timeline.schedule` (timeline.py line 218). -/
def round4 (q : ℚ) : ℚ := (pyRoundInt (q * 10000) : ℚ) / 10000

/-- A scheduled task (`Timeline.ScheduledTask`): its (unrounded) time `at'`,
an identifier standing for the Python callable's identity, and the list of
`(at, tid)` schedule calls the callable performs when invoked (so that a task
may insert further tasks during a `forward` call, as the subtitle machinery
does). -/
structure STask where
  at' : ℚ
  tid : ℕ
  spawns : List (ℚ × ℕ)
deriving DecidableEq, Repr

instance : Inhabited STask := ⟨⟨0, 0, []⟩⟩

/-- Fuel-bounded core of CPython `bisect_right(a, k, lo, hi, key)`:
binary search on the interval `[lo, hi)` of `l` comparing `k` against the
keys `(l[mid]).at'`.  Fuel `hi - lo` is always sufficient. -/
def bisectAux (l : List STask) (k : ℚ) : ℕ → ℕ → ℕ → ℕ
  | 0, lo, _ => lo
  | fuel + 1, lo, hi =>
    if lo < hi then
      let mid := (lo + hi) / 2
      if k < (l.getD mid default).at' then bisectAux l k fuel lo mid
      else bisectAux l k fuel (mid + 1) hi
    else lo

/-- CPython `bisect_right` over the whole list, with key `(·.at')`. -/
def bisectRight (l : List STask) (k : ℚ) : ℕ := bisectAux l k l.length 0 l.length

/-- Insertion of an element at a position of a list (Python `list.insert`). -/
def insertAt (a : STask) : ℕ → List STask → List STask
  | 0, l => a :: l
  | _ + 1, [] => [a]
  | n + 1, h :: t => h :: insertAt a n t

/-- Model of `Timeline.schedule` (timeline.py lines 211-221): the task is
inserted by `insort` while it carries the rounded time `round4 at'`, and its
`at` is then reset to the true time.  Net effect: the insertion position is
`bisect_right` of the rounded key against the existing tasks' (already
unrounded) keys, and the stored task carries the unrounded time. -/
def insortTask (queue : List STask) (t : STask) : List STask :=
  insertAt t (bisectRight queue (round4 t.at')) queue

/-- Termination measure contribution of one task: executing it removes the
task and inserts `t.spawns.length` spawn-free tasks. -/
def taskPot (t : STask) : ℕ := 1 + t.spawns.length

/-- Termination measure of a queue. -/
def potential (l : List STask) : ℕ := (l.map taskPot).sum

/-- Insertion, by repeated `Timeline.schedule`, of the tasks a callable
schedules while it runs. -/
def spawnAll (q : List STask) (sp : List (ℚ × ℕ)) : List STask :=
  sp.foldl (fun acc p => insortTask acc ⟨p.1, p.2, []⟩) q

/-- The `while` loop of `Timeline.forward` (timeline.py lines 237-240):
while the queue head has `at ≤ to_time`, pop it, set `current_time` to its
`at`, and run it (here: insert its spawned tasks and log `(tid, current_time)`).
The fuel argument is only a termination bound; `potential q` fuel always
suffices (each iteration strictly decreases `potential`). -/
def runLoop (toTime : ℚ) : ℕ → ℚ → List STask → List (ℕ × ℚ) →
    ℚ × List STask × List (ℕ × ℚ)
  | 0, t, q, log => (t, q, log)
  | fuel + 1, t, q, log =>
    match q with
    | [] => (t, [], log)
    | h :: rest =>
      if h.at' ≤ toTime then
        runLoop toTime fuel h.at' (spawnAll rest h.spawns) (log ++ [(h.tid, h.at')])
      else (t, h :: rest, log)

/-- Scheduler-relevant state of a `Timeline` during construction. -/
structure SchedState where
  time : ℚ
  queue : List STask
  log : List (ℕ × ℚ)
deriving DecidableEq, Repr

/-- Model of `Timeline.schedule` acting on the timeline state. -/
def schedule (s : SchedState) (at' : ℚ) (tid : ℕ) (spawns : List (ℚ × ℕ)) :
    SchedState :=
  { s with queue := insortTask s.queue ⟨at', tid, spawns⟩ }

/-- Model of `Timeline.forward` (timeline.py lines 225-249), restricted to its
scheduling behaviour (`detect_changes_of_all` is modelled separately): fails
on `dt ≤ 0`, runs due tasks, then sets `current_time := to_time` exactly. -/
def forward (dt : ℚ) (s : SchedState) : Option SchedState :=
  if dt ≤ 0 then none
  else
    let toTime := s.time + dt
    let r := runLoop toTime (potential s.queue) s.time s.queue s.log
    some ⟨toTime, r.2.1, r.2.2⟩

/-! ## Component model: `Cmpt_Rgbas` (src/janim/components/rgbas.py)

An rgba row is a quadruple of rationals.  A `UniqueNparray` is modelled by a
storage id `sid` together with the stored rows: `UniqueNparray.copy` shares
the storage (same `sid`), while assigning `.data` allocates a fresh ndarray
(fresh `sid`), so `is_share` is `sid` equality.  Fresh storage ids are handed
out by an explicit counter threaded through the operations. -/

/-- An rgba row. -/
abbrev Rgba : Type := ℚ × ℚ × ℚ × ℚ

/-- The binding information `Component.BindInfo` (component.py lines 32-67):
declaring class, owning item (by object id), and field key.  Classes and
items are identified by numeric ids. -/
structure BindInfo where
  decl : ℕ
  atItem : ℕ
  key : String
deriving DecidableEq, Repr

/-- A `Cmpt_Rgbas` component: storage id, rgba rows, and its `bind`. -/
structure Cmpt where
  sid : ℕ
  data : List Rgba
  bind : Option BindInfo
deriving DecidableEq

namespace Cmpt

/-- Model of `Cmpt_Rgbas.copy` (rgbas.py lines 23-26): a new wrapper whose
`_rgbas` is `self._rgbas.copy()`, which shares the underlying ndarray; as a
value the component is unchanged (`bind` is kept, cf. component.py line 100). -/
def copy (c : Cmpt) : Cmpt := c

/-- Model of `Cmpt_Rgbas.set_rgbas` (rgbas.py lines 93-95): assigning
`._rgbas.data` stores the rows in a freshly allocated array. -/
def set_rgbas (c : Cmpt) (rows : List Rgba) (fresh : ℕ) : Cmpt × ℕ :=
  (⟨fresh, rows, c.bind⟩, fresh + 1)

/-- Model of `Cmpt_Rgbas.become` (rgbas.py lines 28-30): `self.set(other.get())`. -/
def become (c other : Cmpt) (fresh : ℕ) : Cmpt × ℕ :=
  set_rgbas c other.data fresh

/-- Model of `Cmpt_Rgbas.__eq__` (rgbas.py lines 32-33):
`self._rgbas.is_share(other._rgbas)`, i.e. storage identity. -/
def is_share (a b : Cmpt) : Bool := a.sid = b.sid

/-- Modelled from the spec: `Cmpt_Rgbas` in src defines no `not_changed`
method (even though the `_CmptMeta` metaclass, component.py lines 24-27,
requires one of every concrete component class); §4.2 of the spec describes
`not_changed` as a cheap equality test that must never report "unchanged"
for diverged data, so it is modelled as equality of the stored rows. -/
def not_changed (a b : Cmpt) : Bool := a.data = b.data

/-- Modelled from the spec: `resize_with_interpolation`
(janim/utils/iterables.py, not part of src) — an interpolation-preserving
resample: row `i` of the output is read at continuous index
`i * (len - 1) / (n - 1)` of the input, linearly interpolating between the
two neighbouring rows; a same-length input is returned unchanged. -/
def resize_with_interpolation (l : List Rgba) (n : ℕ) : List Rgba :=
  if l.length = n then l
  else
    (List.range n).map fun i =>
      let ci : ℚ := if n ≤ 1 then 0 else (i : ℚ) * ((l.length : ℚ) - 1) / ((n : ℚ) - 1)
      let lh := (⌊ci⌋).toNat
      let rh := (⌈ci⌉).toNat
      let a := ci - (⌊ci⌋ : ℚ)
      let x := l.getD lh default
      let y := l.getD rh default
      ((1 - a) * x.1 + a * y.1, (1 - a) * x.2.1 + a * y.2.1,
       (1 - a) * x.2.2.1 + a * y.2.2.1, (1 - a) * x.2.2.2 + a * y.2.2.2)

/-- Model of `Cmpt_Rgbas.resize` (rgbas.py lines 176-178):
`self.set(resize_with_interpolation(self.get(), max(1, length)))`. -/
def resize (c : Cmpt) (length : ℕ) (fresh : ℕ) : Cmpt × ℕ :=
  set_rgbas c (resize_with_interpolation c.data (max 1 length)) fresh

/-- Model of `Cmpt_Rgbas.align_for_interpolate` (rgbas.py lines 35-47),
including the `len1 > len2` branch exactly as written in the source, where
`cmpt1_copy` is resized to its own length `len1` (a value-level no-op) and
`cmpt2_copy` is left at length `len2`. -/
def align_for_interpolate (cmpt1 cmpt2 : Cmpt) (fresh : ℕ) :
    (Cmpt × Cmpt × Cmpt) × ℕ :=
  let len1 := cmpt1.data.length
  let len2 := cmpt2.data.length
  let cmpt1_copy := copy cmpt1
  let cmpt2_copy := copy cmpt2
  if len1 < len2 then
    let r := resize cmpt1_copy len2 fresh
    ((r.1, cmpt2_copy, copy r.1), r.2)
  else if len2 < len1 then
    let r := resize cmpt1_copy len1 fresh
    ((r.1, cmpt2_copy, copy r.1), r.2)
  else ((cmpt1_copy, cmpt2_copy, copy cmpt1_copy), fresh)

/-- Modelled from the spec: `interpolate` of janim/utils/bezier.py (not part
of src) is the straight linear blend `(1 - alpha) * a + alpha * b`, applied
rowwise and componentwise to two equal-shaped rgba arrays. -/
def lerpRows (l1 l2 : List Rgba) (alpha : ℚ) : List Rgba :=
  List.zipWith
    (fun (x y : Rgba) =>
      ((1 - alpha) * x.1 + alpha * y.1,
       (1 - alpha) * x.2.1 + alpha * y.2.1,
       (1 - alpha) * x.2.2.1 + alpha * y.2.2.1,
       (1 - alpha) * x.2.2.2 + alpha * y.2.2.2))
    l1 l2

/-- Model of `Cmpt_Rgbas.interpolate` (rgbas.py lines 49-53): if
`cmpt1 == cmpt2` (storage shared) it returns leaving `self` untouched,
otherwise `self.set(interpolate(cmpt1.get(), cmpt2.get(), alpha))`.  The
`path_func` argument is accepted and ignored, as in the source. -/
def interpolate (c cmpt1 cmpt2 : Cmpt) (alpha : ℚ)
    (path_func : ℚ → ℚ → ℚ → ℚ) (fresh : ℕ) : Cmpt × ℕ :=
  let _unused := path_func
  if is_share cmpt1 cmpt2 then (c, fresh)
  else set_rgbas c (lerpRows cmpt1.data cmpt2.data alpha) fresh

end Cmpt

/-! ## Item model (src/janim/items/item.py)

Python object identity is modelled by unique numeric ids (`iid`) handed out
by an explicit fresh-id counter; two distinct allocations always receive
distinct ids, so Python `is` / list `==` on items coincides with id
equality.  The item type id `typ` stands for `type(item)`. -/

/-- The non-recursive data of an item. -/
structure ItemData where
  iid : ℕ
  typ : ℕ
  stored : Bool
  storedChildren : List ℕ
  cmpts : List (String × Cmpt)
  mock : List (String × Cmpt)

/-- An item: its data plus its (live) children, cf. `Item` owning
`self.components` and `Relation.children`. -/
inductive MItem where
  | node (d : ItemData) (children : List MItem)

/-- Data accessor of an item. -/
def MItem.data : MItem → ItemData
  | .node d _ => d

/-- Children accessor of an item. -/
def MItem.children : MItem → List MItem
  | .node _ c => c

/-- Model of `Item.get_children` (item.py lines 367-368) compared under
Python list `==` (elementwise object identity): the list of child ids. -/
def childIds (it : MItem) : List ℕ :=
  if it.data.stored then it.data.storedChildren else it.children.map (fun c => c.data.iid)

/-- Dictionary lookup in a component map (`self.components[key]` resolving to
the first — and, for a dict, only — entry with that key). -/
def lookupC : List (String × Cmpt) → String → Option Cmpt
  | [], _ => none
  | (k, c) :: rest, key => if k = key then some c else lookupC rest key

/-- Rebinding performed by `Item.copy` (item.py lines 405-422): every
component is value-copied and, when bound, rebound to
`BindInfo(cmpt.bind.decl_cls, copy_item, key)`. -/
def rebindCmpts (cm : List (String × Cmpt)) (newId : ℕ) : List (String × Cmpt) :=
  cm.map fun p =>
    (p.1, { p.2 with bind := p.2.bind.map fun b => ⟨b.decl, newId, p.1⟩ })

/-- Model of `Item._init_components` (item.py lines 114-140): `datas` is the
resolved key-to-declaring-class table computed from the MRO; for each entry a
fresh component is created (a fresh `Cmpt_Rgbas` starts with a single opaque
white row, rgbas.py lines 17-21 and 168-170) and bound to
`BindInfo(decl_cls, self, key)`. -/
def init_components (selfId : ℕ) (datas : List (String × ℕ)) (fresh : ℕ) :
    List (String × Cmpt) × ℕ :=
  match datas with
  | [] => ([], fresh)
  | (k, decl) :: rest =>
    let rr := init_components selfId rest (fresh + 1)
    ((k, ⟨fresh, [((1 : ℚ), (1 : ℚ), (1 : ℚ), (1 : ℚ))], some ⟨decl, selfId, k⟩⟩) :: rr.1, rr.2)

mutual

/-- Model of `Item.copy` (item.py lines 387-425): the copy is a fresh object
(fresh id); with `root_only` the copy is `stored` with the children frozen as
an id list, otherwise the children are copied recursively; the components are
value-copied and rebound to the copy, and the astype mock-component cache of
the copy starts empty. -/
def MItem.copy (rootOnly : Bool) : MItem → ℕ → MItem × ℕ
  | .node d ch, fresh =>
    if rootOnly then
      (.node ⟨fresh, d.typ, true,
              if d.stored then d.storedChildren else ch.map (fun c => c.data.iid),
              rebindCmpts d.cmpts fresh, []⟩ [],
       fresh + 1)
    else
      let r := MItem.copyList ch (fresh + 1)
      (.node ⟨fresh, d.typ, d.stored, d.storedChildren,
              rebindCmpts d.cmpts fresh, []⟩ r.1,
       r.2)

/-- Recursive children copy performed by `Item.copy` (item.py line 402). -/
def MItem.copyList : List MItem → ℕ → List MItem × ℕ
  | [], fresh => ([], fresh)
  | x :: xs, fresh =>
    let r1 := MItem.copy false x fresh
    let r2 := MItem.copyList xs r1.2
    (r1.1 :: r2.1, r2.2)

end

/-- Model of `Item.store` (item.py lines 471-472): `self.copy(root_only=True)`. -/
def MItem.store (it : MItem) (fresh : ℕ) : MItem × ℕ := MItem.copy true it fresh

/-- Key-set comparison of two component dictionaries: whether iterating
`self.components.keys() | other.components.keys()` (item.py line 461) indexes
both dictionaries successfully. -/
def keysetEqb (a b : List (String × Cmpt)) : Bool :=
  (a.all fun p => (lookupC b p.1).isSome) && (b.all fun p => (lookupC a p.1).isSome)

/-- The per-key `become` loop of `Item.become` (item.py lines 461-462) in the
successful case: every component of `self` is overwritten from `other`'s
component of the same key (a key unexpectedly missing from `other` leaves the
component as is; under `keysetEqb` this branch is unreachable). -/
def becomeAll : List (String × Cmpt) → List (String × Cmpt) → ℕ →
    List (String × Cmpt) × ℕ
  | [], _, fresh => ([], fresh)
  | (k, c) :: rest, otherC, fresh =>
    match lookupC otherC k with
    | some c2 =>
      let r := Cmpt.become c c2 fresh
      let rr := becomeAll rest otherC r.2
      ((k, r.1) :: rr.1, rr.2)
    | none =>
      let rr := becomeAll rest otherC fresh
      ((k, c) :: rr.1, rr.2)

/-- Model of the component part of `Item.become` (item.py lines 461-462):
`for key in self.components.keys() | other.components.keys():
self.components[key].become(other.components[key])` — indexing both dicts
over the union of key sets raises `KeyError` (here: `none`) as soon as the
key sets differ. -/
def becomeCmpts (selfC otherC : List (String × Cmpt)) (fresh : ℕ) :
    Option (List (String × Cmpt) × ℕ) :=
  if keysetEqb selfC otherC then some (becomeAll selfC otherC fresh) else none

mutual

/-- Model of `Item.become` (item.py lines 445-469): children are paired
positionally (`zip_longest`); a missing or differently-typed old child is
replaced by a copy of the new one, same-typed pairs recurse into `become`;
extra old children (when `other` has fewer) are dropped by the early `break`
after `clear_children`.  Then every component key in the union of the two
key sets has `become` invoked (see `becomeCmpts`).  The timeline re-`show`
side effect (lines 464-467) is outside this model. -/
def mbecome : MItem → MItem → ℕ → Option (MItem × ℕ)
  | .node d ch, .node od och, fresh =>
    match becomeChildren ch och fresh with
    | none => none
    | some r =>
      match becomeCmpts d.cmpts od.cmpts r.2 with
      | none => none
      | some rr =>
        some (.node ⟨d.iid, d.typ, d.stored, d.storedChildren, rr.1, d.mock⟩ r.1, rr.2)

/-- The `zip_longest` child loop of `Item.become` (item.py lines 451-459). -/
def becomeChildren : List MItem → List MItem → ℕ → Option (List MItem × ℕ)
  | _, [], fresh => some ([], fresh)
  | [], n :: ns, fresh =>
    let r := MItem.copy false n fresh
    match becomeChildren [] ns r.2 with
    | none => none
    | some rr => some (r.1 :: rr.1, rr.2)
  | o :: os, n :: ns, fresh =>
    if o.data.typ = n.data.typ then
      match mbecome o n fresh with
      | none => none
      | some r =>
        match becomeChildren os ns r.2 with
        | none => none
        | some rr => some (r.1 :: rr.1, rr.2)
    else
      let r := MItem.copy false n fresh
      match becomeChildren os ns r.2 with
      | none => none
      | some rr => some (r.1 :: rr.1, rr.2)

end

/-- The component loop of `Item.not_changed` (item.py lines 373-375):
`other.components[key]` raises (`none`) on a missing key; otherwise the first
changed component answers `False`. -/
def notChangedCmpts : List (String × Cmpt) → List (String × Cmpt) → Option Bool
  | [], _ => some true
  | (k, c) :: rest, otherC =>
    match lookupC otherC k with
    | none => none
    | some c2 =>
      if Cmpt.not_changed c c2 then notChangedCmpts rest otherC else some false

/-- Model of `Item.not_changed` (item.py lines 370-376): compares the child
lists by object identity, then every owned component against the same key of
`other`. -/
def itemNotChanged (a b : MItem) : Option Bool :=
  if childIds a ≠ childIds b then some false
  else notChangedCmpts a.data.cmpts b.data.cmpts

/-- The component loop of `Item.interpolate` (item.py lines 532-539):
`item1.components[key]` / `item2.components[key]` raise (`none`) on a missing
key; every component here supports interpolation (`SupportsInterpolate`), so
each is interpolated. -/
def interpCmpts : List (String × Cmpt) → List (String × Cmpt) →
    List (String × Cmpt) → ℚ → (ℚ → ℚ → ℚ → ℚ) → ℕ →
    Option (List (String × Cmpt) × ℕ)
  | [], _, _, _, _, fresh => some ([], fresh)
  | (k, c) :: rest, c1s, c2s, alpha, path_func, fresh =>
    match lookupC c1s k, lookupC c2s k with
    | some c1, some c2 =>
      let r := Cmpt.interpolate c c1 c2 alpha path_func fresh
      match interpCmpts rest c1s c2s alpha path_func r.2 with
      | none => none
      | some rr => some ((k, r.1) :: rr.1, rr.2)
    | _, _ => none

/-- Model of `Item.interpolate` (item.py lines 521-539): mutates `self`'s
components (not its children) to the blend of `item1` and `item2` at
`alpha`, forwarding `path_func` to each component. -/
def itemInterpolate (self item1 item2 : MItem) (alpha : ℚ)
    (path_func : ℚ → ℚ → ℚ → ℚ) (fresh : ℕ) : Option (MItem × ℕ) :=
  match interpCmpts self.data.cmpts item1.data.cmpts item2.data.cmpts alpha path_func fresh with
  | none => none
  | some r =>
    some (.node ⟨self.data.iid, self.data.typ, self.data.stored,
                 self.data.storedChildren, r.1, self.data.mock⟩ self.children, r.2)

/-! ## History and change detection (`Timeline._detect_change`)

The `History` container lives in janim/utils/data.py, which is not part of
src; it is modelled from §4.1 of the spec: `record_as_time(t, v, replaceable)`
appends, or replaces the most recent record in place when `replaceable` holds
and that record carries the same time; `has_record` / `latest` peek at the
end; `get(t)` returns the record with the greatest time ≤ `t`. -/

/-- A history record: a time tag and a stored item snapshot. -/
structure HRecord where
  time : ℚ
  data : MItem

/-- Modelled from the spec: `History.record_as_time` (janim/utils/data.py,
not in src). -/
def record_as_time (l : List HRecord) (t : ℚ) (v : MItem) (replaceable : Bool) :
    List HRecord :=
  match l.getLast? with
  | some r =>
    if replaceable && decide (r.time = t) then l.dropLast ++ [⟨t, v⟩] else l ++ [⟨t, v⟩]
  | none => l ++ [⟨t, v⟩]

/-- The two history streams of `Timeline.ItemHistory` (timeline.py lines
154-157), restricted to static entries (dynamic entries are modelled in the
query-time state below, where they matter). -/
structure ItemHist where
  hist : List HRecord
  histWoDyn : List HRecord

/-- Model of `Timeline._detect_change` (timeline.py lines 587-593): if the
static history has no record, or its latest snapshot reports a change
against the live item, a `store()` copy is recorded into both streams at
`as_time`. -/
def detectChange (item : MItem) (ih : ItemHist) (asTime : ℚ) (fresh : ℕ) :
    ItemHist × ℕ :=
  let unchanged :=
    match ih.histWoDyn.getLast? with
    | none => false
    | some r => itemNotChanged r.data item = some true
  if unchanged then (ih, fresh)
  else
    let r := MItem.store item fresh
    (⟨record_as_time ih.hist asTime r.1 false,
      record_as_time ih.histWoDyn asTime r.1 false⟩, r.2)

/-! ## Post-build state queries: `Timeline.item_current` (timeline.py 615-635) -/

/-- An entry of the full history stream: a static snapshot or a dynamic
`time -> Item` callable. -/
inductive HEntry where
  | static (it : MItem)
  | dyn (f : ℚ → MItem)

/-- The two history streams of one tracked item, as queried after build. -/
structure ItemHist9 where
  hist : List (ℚ × HEntry)
  histWoDyn : List (ℚ × MItem)

/-- The query-relevant state of a built `Timeline`: the `items_history`
defaultdict (timeline.py line 171), as an association list in insertion
order. -/
structure TLState where
  itemsHistory : List (ℕ × ItemHist9)

/-- Subscripting the `items_history` defaultdict: a missing key inserts a
fresh empty `ItemHistory` (this is what `self.items_history[item]` does on an
untracked item). -/
def getIH (s : TLState) (iid : ℕ) : ItemHist9 × TLState :=
  match s.itemsHistory.find? (fun p => p.1 = iid) with
  | some p => (p.2, s)
  | none => (⟨[], []⟩, ⟨s.itemsHistory ++ [(iid, ⟨[], []⟩)]⟩)

/-- Modelled from the spec: `History.get(t)` (janim/utils/data.py, not in
src) — the entry with the greatest time ≤ `t`, `none` when no entry
qualifies. -/
def historyGet {α : Type} (entries : List (ℚ × α)) (t : ℚ) : Option α :=
  ((entries.filter fun p => decide (p.1 ≤ t)).getLast?).map (fun p => p.2)

/-- Model of `Timeline.item_current` (timeline.py lines 615-635): resolve the
item's state at a time.  `asTime` is the explicit argument; `ctxTime` models
the ambient updater/global-time context consulted when `asTime` is absent.
Returns the resolved item together with the (possibly grown) timeline state. -/
def itemCurrent (s : TLState) (item : MItem) (asTime ctxTime : Option ℚ)
    (skipDynamic : Bool) : MItem × TLState :=
  let r := getIH s item.data.iid
  let hasRec := if skipDynamic then !r.1.histWoDyn.isEmpty else !r.1.hist.isEmpty
  if !hasRec then (item, r.2)
  else
    match asTime.orElse (fun _ => ctxTime) with
    | none => (item, r.2)
    | some t =>
      if skipDynamic then
        ((historyGet r.1.histWoDyn t).getD item, r.2)
      else
        match historyGet r.1.hist t with
        | some (.static it) => (it, r.2)
        | some (.dyn f) => (f t, r.2)
        | none => (item, r.2)

/-! ## Display bookkeeping: `Timeline._show` / `Timeline._hide`
(timeline.py lines 284-334).  A produced `Display` animation with
`duration = current_time - time` and `local_range.at += time` spans
`[time, current_time)`; it is recorded as `(item, shownAt, hiddenAt)`. -/

/-- Display-relevant state of a `Timeline` during construction. -/
structure DispState where
  time : ℚ
  displayTimes : List (ℕ × ℚ)
  displayAnims : List (ℕ × ℚ × ℚ)
deriving DecidableEq, Repr

/-- The pure result of `itemCurrent` as a function of the (looked-up or
freshly created) `ItemHistory` alone — used to state that query results do
not depend on the defaultdict side effect. -/
def resolveItem (ih : ItemHist9) (item : MItem) (asTime ctxTime : Option ℚ)
    (skipDynamic : Bool) : MItem :=
  let hasRec := if skipDynamic then !ih.histWoDyn.isEmpty else !ih.hist.isEmpty
  if !hasRec then item
  else
    match asTime.orElse (fun _ => ctxTime) with
    | none => item
    | some t =>
      if skipDynamic then (historyGet ih.histWoDyn t).getD item
      else
        match historyGet ih.hist t with
        | some (.static it) => it
        | some (.dyn f) => f t
        | none => item

/-- A queue sorted by the tasks' (unrounded) times. -/
def QSorted (l : List STask) : Prop :=
  l.Pairwise (fun a b => a.at' ≤ b.at')

/-- All times of a queue are exact at the 1e-4 scheduling precision and no
task schedules into its own past: each task's time is a fixed point of
`round4`, and each of its spawned tasks has a `round4`-fixed time not before
the task's own time. -/
def RoundOK (l : List STask) : Prop :=
  ∀ tk ∈ l, round4 tk.at' = tk.at' ∧ ∀ p ∈ tk.spawns, round4 p.1 = p.1 ∧ tk.at' ≤ p.1

/-- Model of `Timeline._show` (timeline.py lines 292-293):
`self.item_display_times.setdefault(item, self.current_time)`. -/
def tlShow (s : DispState) (item : ℕ) : DispState :=
  match s.displayTimes.find? (fun p => p.1 = item) with
  | some _ => s
  | none => { s with displayTimes := s.displayTimes ++ [(item, s.time)] }

/-- Model of `Timeline._hide` (timeline.py lines 305-316): pop the shown-at
time; absent means no-op; otherwise emit a `Display` spanning
`[time, current_time)` and clear visibility. -/
def tlHide (s : DispState) (item : ℕ) : DispState :=
  match s.displayTimes.find? (fun p => p.1 = item) with
  | none => s
  | some p =>
    { s with
      displayTimes := s.displayTimes.filter (fun q => q.1 ≠ item),
      displayAnims := s.displayAnims ++ [(item, p.2, s.time)] }

/-! ## Helper lemmas about the scheduler -/

theorem insertAt_eq_take_drop (a : STask) :
    ∀ (n : ℕ) (l : List STask), insertAt a n l = l.take n ++ a :: l.drop n
  | 0, l => by simp [insertAt]
  | n + 1, [] => by simp [insertAt]
  | n + 1, h :: t => by
    simp only [insertAt, List.take_succ_cons, List.drop_succ_cons, List.cons_append]
    exact congrArg _ (insertAt_eq_take_drop a n t)

theorem potential_append (a b : List STask) :
    potential (a ++ b) = potential a + potential b := by
  simp [potential]

theorem potential_insertAt (a : STask) (n : ℕ) (l : List STask) :
    potential (insertAt a n l) = taskPot a + potential l := by
  rw [insertAt_eq_take_drop]
  have h := congrArg potential (List.take_append_drop n l)
  rw [potential_append] at h
  rw [potential_append]
  simp only [potential, List.map_cons, List.sum_cons] at h ⊢
  omega

theorem mem_insertAt {x a : STask} {n : ℕ} {l : List STask} :
    x ∈ insertAt a n l ↔ x = a ∨ x ∈ l := by
  rw [insertAt_eq_take_drop]
  constructor
  · intro h
    rcases List.mem_append.mp h with h | h
    · exact Or.inr (List.mem_of_mem_take h)
    · rcases List.mem_cons.mp h with h | h
      · exact Or.inl h
      · exact Or.inr (List.mem_of_mem_drop h)
  · intro h
    rcases h with h | h
    · exact List.mem_append.mpr (Or.inr (List.mem_cons.mpr (Or.inl h)))
    · conv at h => rw [← List.take_append_drop n l]
      rcases List.mem_append.mp h with h | h
      · exact List.mem_append.mpr (Or.inl h)
      · exact List.mem_append.mpr (Or.inr (List.mem_cons_of_mem _ h))

theorem potential_eq_zero {l : List STask} (h : potential l ≤ 0) : l = [] := by
  cases l with
  | nil => rfl
  | cons hd tl => simp [potential, taskPot] at h

-- Sorted queues have monotone keys by position.
theorem qsorted_getD_mono {l : List STask} (hs : QSorted l) :
    ∀ i j, i ≤ j → j < l.length →
      (l.getD i default).at' ≤ (l.getD j default).at' := by
  intro i j hij hj
  rcases eq_or_lt_of_le hij with h | h
  · subst h; exact le_refl _
  · have hi : i < l.length := lt_trans h hj
    rw [List.getD_eq_getElem l default hi, List.getD_eq_getElem l default hj]
    exact List.pairwise_iff_getElem.mp hs i j hi hj h

-- Binary-search correctness of bisect_right on a sorted interval.
theorem bisectAux_spec (l : List STask) (k : ℚ)
    (hmono : ∀ i j, i ≤ j → j < l.length →
      (l.getD i default).at' ≤ (l.getD j default).at') :
    ∀ (fuel lo hi : ℕ), lo ≤ hi → hi ≤ l.length → hi - lo ≤ fuel →
      (∀ i, i < lo → (l.getD i default).at' ≤ k) →
      (∀ i, hi ≤ i → i < l.length → k < (l.getD i default).at') →
      bisectAux l k fuel lo hi ≤ l.length ∧
      (∀ i, i < bisectAux l k fuel lo hi → (l.getD i default).at' ≤ k) ∧
      (∀ i, bisectAux l k fuel lo hi ≤ i → i < l.length →
        k < (l.getD i default).at') := by
  intro fuel
  induction fuel with
  | zero =>
    intro lo hi hlohi hhile hfuel hpre hsuf
    have : lo = hi := by omega
    subst this
    exact ⟨le_trans hlohi hhile, fun i hi2 => hpre i hi2, fun i h1 h2 => hsuf i h1 h2⟩
  | succ fuel ih =>
    intro lo hi hlohi hhile hfuel hpre hsuf
    by_cases hlt : lo < hi
    · have hmidlt : (lo + hi) / 2 < hi := by omega
      have hmidge : lo ≤ (lo + hi) / 2 := by omega
      simp only [bisectAux, if_pos hlt]
      by_cases hcmp : k < (l.getD ((lo + hi) / 2) default).at'
      · rw [if_pos hcmp]
        refine ih lo ((lo + hi) / 2) hmidge (le_trans hmidlt.le hhile) (by omega) hpre ?_
        intro i h1 h2
        exact lt_of_lt_of_le hcmp (hmono _ i h1 h2)
      · rw [if_neg hcmp]
        refine ih ((lo + hi) / 2 + 1) hi (by omega) hhile (by omega) ?_ hsuf
        intro i hi2
        have hle : i ≤ (lo + hi) / 2 := by omega
        exact le_trans (hmono i _ hle (lt_of_lt_of_le hmidlt hhile)) (not_lt.mp hcmp)
    · have : lo = hi := by omega
      subst this
      simp only [bisectAux, if_neg hlt]
      exact ⟨le_trans hlohi hhile, fun i hi2 => hpre i hi2, fun i h1 h2 => hsuf i h1 h2⟩

theorem bisectRight_spec (l : List STask) (k : ℚ)
    (hmono : ∀ i j, i ≤ j → j < l.length →
      (l.getD i default).at' ≤ (l.getD j default).at') :
    bisectRight l k ≤ l.length ∧
    (∀ i, i < bisectRight l k → (l.getD i default).at' ≤ k) ∧
    (∀ i, bisectRight l k ≤ i → i < l.length → k < (l.getD i default).at') := by
  unfold bisectRight
  exact bisectAux_spec l k hmono l.length 0 l.length (Nat.zero_le _) le_rfl
    (by omega) (by omega) (by omega)

theorem mem_insortTask {x t : STask} {q : List STask} :
    x ∈ insortTask q t ↔ x = t ∨ x ∈ q := mem_insertAt

theorem potential_insortTask (q : List STask) (t : STask) :
    potential (insortTask q t) = taskPot t + potential q :=
  potential_insertAt t _ q

-- insort of a round-fixed time into a sorted queue keeps it sorted.
theorem insortTask_sorted {q : List STask} {t : STask} (hs : QSorted q)
    (hrf : round4 t.at' = t.at') : QSorted (insortTask q t) := by
  unfold insortTask
  rw [hrf, insertAt_eq_take_drop]
  obtain ⟨hle, hpre, hsuf⟩ := bisectRight_spec q t.at' (qsorted_getD_mono hs)
  have htake : ∀ x ∈ q.take (bisectRight q t.at'), x.at' ≤ t.at' := by
    intro x hx
    obtain ⟨i, hi, hget⟩ := List.mem_iff_getElem.mp hx
    have hi2 : i < bisectRight q t.at' := by
      have := hi
      simp only [List.length_take, lt_min_iff] at this
      exact this.1
    have hilen : i < q.length := by
      have := hi
      simp only [List.length_take, lt_min_iff] at this
      exact this.2
    have heq : (q.take (bisectRight q t.at'))[i] = q[i] := List.getElem_take ..
    rw [heq] at hget
    rw [← hget]
    have := hpre i hi2
    rwa [List.getD_eq_getElem q default hilen] at this
  have hdrop : ∀ x ∈ q.drop (bisectRight q t.at'), t.at' < x.at' := by
    intro x hx
    obtain ⟨i, hi, hget⟩ := List.mem_iff_getElem.mp hx
    have hilen : bisectRight q t.at' + i < q.length := by
      have := hi
      simp only [List.length_drop] at this
      omega
    have heq : (q.drop (bisectRight q t.at'))[i] = q[bisectRight q t.at' + i] :=
      List.getElem_drop ..
    rw [heq] at hget
    rw [← hget]
    have := hsuf (bisectRight q t.at' + i) (by omega) hilen
    rwa [List.getD_eq_getElem q default hilen] at this
  unfold QSorted
  rw [List.pairwise_append]
  refine ⟨hs.sublist (List.take_sublist ..), ?_, ?_⟩
  · rw [List.pairwise_cons]
    exact ⟨fun x hx => (hdrop x hx).le, hs.sublist (List.drop_sublist ..)⟩
  · intro a ha b hb
    rcases List.mem_cons.mp hb with h | h
    · subst h; exact htake a ha
    · exact le_trans (htake a ha) (hdrop b h).le

theorem mem_spawnAll {sp : List (ℚ × ℕ)} :
    ∀ {q : List STask} {x : STask}, x ∈ spawnAll q sp →
      x ∈ q ∨ ∃ p ∈ sp, x = (⟨p.1, p.2, []⟩ : STask) := by
  induction sp with
  | nil => intro q x h; exact Or.inl h
  | cons hd tl ih =>
    intro q x h
    rcases ih h with h2 | h2
    · rcases mem_insortTask.mp h2 with h3 | h3
      · exact Or.inr ⟨hd, List.mem_cons_self .., h3⟩
      · exact Or.inl h3
    · obtain ⟨p, hp, hx⟩ := h2
      exact Or.inr ⟨p, List.mem_cons_of_mem _ hp, hx⟩

theorem potential_spawnAll (sp : List (ℚ × ℕ)) :
    ∀ q : List STask, potential (spawnAll q sp) = potential q + sp.length := by
  induction sp with
  | nil => intro q; simp [spawnAll]
  | cons hd tl ih =>
    intro q
    have : spawnAll q (hd :: tl) = spawnAll (insortTask q ⟨hd.1, hd.2, []⟩) tl := rfl
    rw [this, ih, potential_insortTask]
    simp [taskPot]
    omega

theorem spawnAll_sorted {sp : List (ℚ × ℕ)} :
    ∀ {q : List STask}, QSorted q → (∀ p ∈ sp, round4 p.1 = p.1) →
      QSorted (spawnAll q sp) := by
  induction sp with
  | nil => intro q hs _; exact hs
  | cons hd tl ih =>
    intro q hs hrf
    have : spawnAll q (hd :: tl) = spawnAll (insortTask q ⟨hd.1, hd.2, []⟩) tl := rfl
    rw [this]
    exact ih (insortTask_sorted hs (hrf hd (List.mem_cons_self ..)))
      (fun p hp => hrf p (List.mem_cons_of_mem _ hp))

-- Every element of a queue bounds the fold-min of its times from above.
theorem foldr_min_le (l : List ℚ) (init : ℚ) :
    ∀ x ∈ l, l.foldr min init ≤ x := by
  induction l with
  | nil => intro x hx; simp at hx
  | cons hd tl ih =>
    intro x hx
    rcases List.mem_cons.mp hx with h | h
    · subst h; exact min_le_left _ _
    · exact le_trans (min_le_right _ _) (ih x h)

-- Main loop invariant for `forward`: with a sorted, round-exact queue, the
-- loop executes exactly the due tasks, in nondecreasing time order, and no
-- due task remains.
theorem runLoop_spec (toTime : ℚ) :
    ∀ (fuel : ℕ) (q : List STask) (t b : ℚ) (log : List (ℕ × ℚ)),
      potential q ≤ fuel → QSorted q → RoundOK q →
      (∀ tk ∈ q, b ≤ tk.at') →
      (∀ tk ∈ (runLoop toTime fuel t q log).2.1, toTime < tk.at') ∧
      ∃ nw, (runLoop toTime fuel t q log).2.2 = log ++ nw ∧
        (∀ e ∈ nw, b ≤ e.2 ∧ e.2 ≤ toTime) ∧
        (nw.map Prod.snd).Pairwise (· ≤ ·) := by
  intro fuel
  induction fuel with
  | zero =>
    intro q t b log hpot _ _ _
    have hq : q = [] := potential_eq_zero hpot
    subst hq
    exact ⟨by simp [runLoop], [], by simp [runLoop], by simp, by simp⟩
  | succ fuel ih =>
    intro q t b log hpot hs hr hb
    cases q with
    | nil =>
      exact ⟨by simp [runLoop], [], by simp [runLoop], by simp, by simp⟩
    | cons h rest =>
      by_cases hdue : h.at' ≤ toTime
      · have hstep : runLoop toTime (fuel + 1) t (h :: rest) log =
            runLoop toTime fuel h.at' (spawnAll rest h.spawns)
              (log ++ [(h.tid, h.at')]) := by
          simp only [runLoop, if_pos hdue]
        have hpot2 : potential (spawnAll rest h.spawns) ≤ fuel := by
          rw [potential_spawnAll]
          have : potential (h :: rest) = taskPot h + potential rest := by
            simp [potential]
          rw [this] at hpot
          simp only [taskPot] at hpot
          omega
        have hsrest : QSorted rest := (List.pairwise_cons.mp hs).2
        have hhead : ∀ x ∈ rest, h.at' ≤ x.at' := (List.pairwise_cons.mp hs).1
        have hrh := hr h (List.mem_cons_self ..)
        have hs2 : QSorted (spawnAll rest h.spawns) :=
          spawnAll_sorted hsrest (fun p hp => (hrh.2 p hp).1)
        have hr2 : RoundOK (spawnAll rest h.spawns) := by
          intro tk htk
          rcases mem_spawnAll htk with h2 | h2
          · exact hr tk (List.mem_cons_of_mem _ h2)
          · obtain ⟨p, hp, hx⟩ := h2
            subst hx
            exact ⟨(hrh.2 p hp).1, by simp⟩
        have hb2 : ∀ tk ∈ spawnAll rest h.spawns, h.at' ≤ tk.at' := by
          intro tk htk
          rcases mem_spawnAll htk with h2 | h2
          · exact hhead tk h2
          · obtain ⟨p, hp, hx⟩ := h2
            subst hx
            exact (hrh.2 p hp).2
        obtain ⟨hrem, nw, hlog, hbound, hpair⟩ :=
          ih (spawnAll rest h.spawns) h.at' h.at' (log ++ [(h.tid, h.at')])
            hpot2 hs2 hr2 hb2
        rw [hstep]
        refine ⟨hrem, (h.tid, h.at') :: nw, ?_, ?_, ?_⟩
        · rw [hlog]
          simp
        · intro e he
          rcases List.mem_cons.mp he with h2 | h2
          · subst h2
            exact ⟨hb h (List.mem_cons_self ..), hdue⟩
          · obtain ⟨hb3, ht3⟩ := hbound e h2
            exact ⟨le_trans (hb h (List.mem_cons_self ..)) hb3, ht3⟩
        · rw [List.map_cons, List.pairwise_cons]
          refine ⟨?_, hpair⟩
          intro y hy
          obtain ⟨e, he, hey⟩ := List.mem_map.mp hy
          rw [← hey]
          exact (hbound e he).1
      · have hstep : runLoop toTime (fuel + 1) t (h :: rest) log =
            (t, h :: rest, log) := by
          simp only [runLoop, if_neg hdue]
        rw [hstep]
        refine ⟨?_, [], by simp, by simp, by simp⟩
        intro tk htk
        rcases List.mem_cons.mp htk with h2 | h2
        · subst h2; exact not_le.mp hdue
        · exact lt_of_lt_of_le (not_le.mp hdue) ((List.pairwise_cons.mp hs).1 tk h2)

-- A key list without duplicates makes dictionary lookup find the entry itself.
theorem lookupC_of_mem_nodup {l : List (String × Cmpt)} {k : String} {c : Cmpt}
    (hnd : (l.map Prod.fst).Nodup) (hm : (k, c) ∈ l) : lookupC l k = some c := by
  induction l with
  | nil => simp at hm
  | cons hd tl ih =>
    obtain ⟨k0, c0⟩ := hd
    simp only [List.map_cons, List.nodup_cons] at hnd
    rcases List.mem_cons.mp hm with h | h
    · injection h with h1 h2
      subst h1; subst h2
      simp [lookupC]
    · have hk0 : k0 ≠ k := by
        intro hk
        exact hnd.1 (hk ▸ (List.mem_map.mpr ⟨(k, c), h, rfl⟩))
      simp [lookupC, hk0, ih hnd.2 h]

theorem lookupC_isSome_iff {l : List (String × Cmpt)} {k : String} :
    (lookupC l k).isSome ↔ k ∈ l.map Prod.fst := by
  induction l with
  | nil => simp [lookupC]
  | cons hd tl ih =>
    obtain ⟨k0, c0⟩ := hd
    by_cases h : k0 = k
    · subst h; simp [lookupC]
    · have h2 : k ≠ k0 := fun hh => h hh.symm
      simp [lookupC, h, h2, ih]

-- Rebinding preserves keys and data.
theorem rebindCmpts_map_fst (l : List (String × Cmpt)) (f : ℕ) :
    (rebindCmpts l f).map Prod.fst = l.map Prod.fst := by
  induction l with
  | nil => rfl
  | cons hd tl ih =>
    simp only [rebindCmpts, List.map_cons] at ih ⊢
    simp [ih]

theorem lookupC_rebindCmpts (l : List (String × Cmpt)) (f : ℕ) (k : String) :
    lookupC (rebindCmpts l f) k =
      (lookupC l k).map fun c => ⟨c.sid, c.data, c.bind.map fun b => ⟨b.decl, f, k⟩⟩ := by
  induction l with
  | nil => rfl
  | cons hd tl ih =>
    obtain ⟨k0, c0⟩ := hd
    by_cases h : k0 = k
    · subst h; simp [rebindCmpts, lookupC]
    · simp [rebindCmpts, lookupC, h] at ih ⊢; exact ih

-- Matching key lists give equal lookup-success behaviour, hence `keysetEqb`.
theorem keysetEqb_of_map_fst_eq {a b : List (String × Cmpt)}
    (h : a.map Prod.fst = b.map Prod.fst) : keysetEqb a b = true := by
  unfold keysetEqb
  rw [Bool.and_eq_true, List.all_eq_true, List.all_eq_true]
  constructor
  · intro p hp
    rw [Option.isSome_iff_exists]
    have : p.1 ∈ b.map Prod.fst := h ▸ List.mem_map.mpr ⟨p, hp, rfl⟩
    obtain ⟨c, hc⟩ := Option.isSome_iff_exists.mp (lookupC_isSome_iff.mpr this)
    exact ⟨c, hc⟩
  · intro p hp
    rw [Option.isSome_iff_exists]
    have : p.1 ∈ a.map Prod.fst := h ▸ List.mem_map.mpr ⟨p, hp, rfl⟩
    obtain ⟨c, hc⟩ := Option.isSome_iff_exists.mp (lookupC_isSome_iff.mpr this)
    exact ⟨c, hc⟩

-- Keys are preserved by the become loop.
theorem becomeAll_map_fst (selfC otherC : List (String × Cmpt)) (f : ℕ) :
    (becomeAll selfC otherC f).1.map Prod.fst = selfC.map Prod.fst := by
  induction selfC generalizing f with
  | nil => rfl
  | cons hd tl ih =>
    obtain ⟨k, c⟩ := hd
    cases h : lookupC otherC k <;> simp [becomeAll, h, ih]

-- Lookup into the result of the become loop.
theorem lookupC_becomeAll {selfC : List (String × Cmpt)}
    (otherC : List (String × Cmpt)) (f : ℕ) {k : String} {c : Cmpt}
    (h : lookupC selfC k = some c) :
    ∃ c', lookupC (becomeAll selfC otherC f).1 k = some c' ∧
      c'.bind = c.bind ∧
      c'.data = (match lookupC otherC k with
                 | some c2 => c2.data
                 | none => c.data) := by
  induction selfC generalizing f with
  | nil => simp [lookupC] at h
  | cons hd tl ih =>
    obtain ⟨k0, c0⟩ := hd
    by_cases hk : k0 = k
    · subst hk
      have hc : c0 = c := by simpa [lookupC] using h
      subst hc
      cases h2 : lookupC otherC k0 with
      | some c2 =>
        refine ⟨⟨f, c2.data, c0.bind⟩, ?_⟩
        simp [becomeAll, h2, lookupC, Cmpt.become, Cmpt.set_rgbas]
      | none =>
        refine ⟨c0, ?_⟩
        simp [becomeAll, h2, lookupC]
    · simp only [lookupC, if_neg hk] at h
      cases h2 : lookupC otherC k0 with
      | some c2 =>
        obtain ⟨c', hc'⟩ := ih (f := (Cmpt.become c0 c2 f).2) h
        exact ⟨c', by simp [becomeAll, h2, lookupC, hk, hc'.1, hc'.2.1, hc'.2.2]⟩
      | none =>
        obtain ⟨c', hc'⟩ := ih (f := f) h
        exact ⟨c', by simp [becomeAll, h2, lookupC, hk, hc'.1, hc'.2.1, hc'.2.2]⟩

-- Membership in a rebound component map.
theorem mem_rebindCmpts {l : List (String × Cmpt)} {f : ℕ} {k : String} {c : Cmpt}
    (h : (k, c) ∈ rebindCmpts l f) :
    ∃ c0, (k, c0) ∈ l ∧ c.data = c0.data ∧ c.sid = c0.sid ∧
      c.bind = c0.bind.map fun b => ⟨b.decl, f, k⟩ := by
  obtain ⟨p, hp, heq⟩ := List.mem_map.mp h
  obtain ⟨k0, c0⟩ := p
  injection heq with h1 h2
  subst h1
  exact ⟨c0, hp, by rw [← h2], by rw [← h2], by rw [← h2]⟩

-- Rowwise-equal data across a lookup makes the not_changed loop succeed.
theorem notChangedCmpts_of_data_eq {aC bC : List (String × Cmpt)}
    (h : ∀ k c, (k, c) ∈ aC → ∃ c', lookupC bC k = some c' ∧ c'.data = c.data) :
    notChangedCmpts aC bC = some true := by
  induction aC with
  | nil => rfl
  | cons hd tl ih =>
    obtain ⟨k, c⟩ := hd
    obtain ⟨c', hc', hdata⟩ := h k c (List.mem_cons_self ..)
    have : Cmpt.not_changed c c' = true := by
      simp [Cmpt.not_changed, hdata]
    simp only [notChangedCmpts, hc', this, if_pos]
    exact ih fun k2 c2 hm => h k2 c2 (List.mem_cons_of_mem _ hm)

-- A store()d snapshot of an item reports no change against the live item.
theorem store_not_changed (d : ItemData) (ch : List MItem) (fresh : ℕ)
    (hnd : (d.cmpts.map Prod.fst).Nodup) :
    itemNotChanged (MItem.store (.node d ch) fresh).1 (.node d ch) = some true := by
  unfold MItem.store
  simp only [MItem.copy]
  unfold itemNotChanged
  rw [if_neg]
  · apply notChangedCmpts_of_data_eq
    intro k c hm
    obtain ⟨c0, hm0, hdata, _, _⟩ := mem_rebindCmpts hm
    exact ⟨c0, lookupC_of_mem_nodup hnd hm0, hdata.symm⟩
  · simp [childIds, MItem.data, MItem.children]

-- With replaceable=False, record_as_time always appends.
theorem record_as_time_append (l : List HRecord) (t : ℚ) (v : MItem) :
    record_as_time l t v false = l ++ [⟨t, v⟩] := by
  unfold record_as_time
  cases l.getLast? <;> simp

-- zipWith collapses to its left (resp. right) list when the combinator
-- projects and the lengths agree.
theorem zipWith_left_of_len {α : Type} (f : α → α → α) (hf : ∀ x y, f x y = x) :
    ∀ l1 l2 : List α, l1.length = l2.length → List.zipWith f l1 l2 = l1
  | [], [], _ => rfl
  | [], _ :: _, h => by simp at h
  | _ :: _, [], h => by simp at h
  | x :: xs, y :: ys, h => by
    simp only [List.zipWith_cons_cons, hf]
    exact congrArg _ (zipWith_left_of_len f hf xs ys (by simpa using h))

theorem zipWith_right_of_len {α : Type} (f : α → α → α) (hf : ∀ x y, f x y = y) :
    ∀ l1 l2 : List α, l1.length = l2.length → List.zipWith f l1 l2 = l2
  | [], [], _ => rfl
  | [], _ :: _, h => by simp at h
  | _ :: _, [], h => by simp at h
  | x :: xs, y :: ys, h => by
    simp only [List.zipWith_cons_cons, hf]
    exact congrArg _ (zipWith_right_of_len f hf xs ys (by simpa using h))

-- The linear blend is exact at the two endpoints.
theorem lerpRows_zero (l1 l2 : List Rgba) (h : l1.length = l2.length) :
    Cmpt.lerpRows l1 l2 0 = l1 := by
  apply zipWith_left_of_len _ _ _ _ h
  rintro ⟨x1, x2, x3, x4⟩ ⟨y1, y2, y3, y4⟩
  refine Prod.ext (by ring) (Prod.ext (by ring) (Prod.ext (by ring) (by ring)))

theorem lerpRows_one (l1 l2 : List Rgba) (h : l1.length = l2.length) :
    Cmpt.lerpRows l1 l2 1 = l2 := by
  apply zipWith_right_of_len _ _ _ _ h
  rintro ⟨x1, x2, x3, x4⟩ ⟨y1, y2, y3, y4⟩
  refine Prod.ext (by ring) (Prod.ext (by ring) (Prod.ext (by ring) (by ring)))

-- The interpolation loop succeeds whenever every key of self resolves in
-- both aligned sides, and each produced component's rows are either the
-- untouched original's (shared storage) or the blend of the two sides.
theorem interpCmpts_spec (c1s c2s : List (String × Cmpt)) (alpha : ℚ)
    (pf : ℚ → ℚ → ℚ → ℚ) :
    ∀ (selfC : List (String × Cmpt)) (fresh : ℕ),
      (∀ k c, (k, c) ∈ selfC → (lookupC c1s k).isSome ∧ (lookupC c2s k).isSome) →
      ∃ out g, interpCmpts selfC c1s c2s alpha pf fresh = some (out, g) ∧
        ∀ k c', (k, c') ∈ out → ∃ c c1 c2, (k, c) ∈ selfC ∧
          lookupC c1s k = some c1 ∧ lookupC c2s k = some c2 ∧
          c'.data = if c1.sid = c2.sid then c.data
                    else Cmpt.lerpRows c1.data c2.data alpha := by
  intro selfC
  induction selfC with
  | nil =>
    intro fresh _
    exact ⟨[], fresh, rfl, by simp⟩
  | cons hd tl ih =>
    intro fresh hres
    obtain ⟨k, c⟩ := hd
    obtain ⟨h1s, h2s⟩ := hres k c (List.mem_cons_self ..)
    obtain ⟨c1, hc1⟩ := Option.isSome_iff_exists.mp h1s
    obtain ⟨c2, hc2⟩ := Option.isSome_iff_exists.mp h2s
    obtain ⟨out, g, hout, hprop⟩ :=
      ih (Cmpt.interpolate c c1 c2 alpha pf fresh).2
        (fun k2 cc hm => hres k2 cc (List.mem_cons_of_mem _ hm))
    refine ⟨(k, (Cmpt.interpolate c c1 c2 alpha pf fresh).1) :: out, g, ?_, ?_⟩
    · simp only [interpCmpts, hc1, hc2, hout]
    · intro k2 c' hm
      rcases List.mem_cons.mp hm with h | h
      · injection h with hk hc'
        subst hk
        refine ⟨c, c1, c2, List.mem_cons_self .., hc1, hc2, ?_⟩
        subst hc'
        unfold Cmpt.interpolate Cmpt.is_share Cmpt.set_rgbas
        by_cases hsh : c1.sid = c2.sid <;> simp [hsh]
      · obtain ⟨cc, cc1, cc2, hmem, h1, h2, hdata⟩ := hprop k2 c' h
        exact ⟨cc, cc1, cc2, List.mem_cons_of_mem _ hmem, h1, h2, hdata⟩

-- become on an empty old-children list always succeeds (every new child is
-- just copied).
theorem becomeChildren_nil : ∀ (ns : List MItem) (fresh : ℕ),
    ∃ l g, becomeChildren [] ns fresh = some (l, g)
  | [], fresh => ⟨[], fresh, rfl⟩
  | n :: ns, fresh => by
    obtain ⟨l, g, h⟩ := becomeChildren_nil ns (MItem.copy false n fresh).2
    exact ⟨(MItem.copy false n fresh).1 :: l, g, by simp only [becomeChildren, h]⟩

/-! ## Claim theorems -/

/-- C1 (counterexample): a task whose `at` is within the pre-call
`current_time + dt` can fail to execute in that `forward` call.  Scheduling
task 1 at 0.49999 and then task 2 at 0.49996 queues task 2 second, because
its insort key is the rounded 0.5 which is not below 0.49999; `forward`
with `dt = 0.49997` then stops at the queue head (0.49999 > to_time) and
executes nothing, although task 2's time 0.49996 ≤ to_time = 0.49997. -/
theorem forward_skips_due_task_cex :
    forward (49997/100000)
        (schedule (schedule ⟨0, [], []⟩ (49999/100000) 1 []) (49996/100000) 2 []) =
      some ⟨49997/100000,
        [⟨49999/100000, 1, []⟩, ⟨49996/100000, 2, []⟩], []⟩ ∧
    ((49996 : ℚ)/100000 ≤ 0 + 49997/100000) := by
  constructor
  · norm_num [forward, schedule, insortTask, bisectRight, bisectAux, insertAt,
      spawnAll, runLoop, potential, taskPot, round4, pyRoundInt]
  · norm_num

/-- C1 (amended): provided every pending or spawned task time is exact at
the 1e-4 scheduling precision (a `round4` fixed point), no task schedules
into its own past, and the queue is sorted by task time, `forward(dt)` with
`dt > 0` executes every task whose `at` is at most the pre-call
`current_time + dt` — including tasks inserted during the call at the
boundary — in queue order with nondecreasing invocation times, records
`current_time = at` for each invocation, and afterwards
`current_time = pre-call time + dt` exactly; no due task remains queued. -/
theorem forward_executes_all_due (dt : ℚ) (s : SchedState)
    (hdt : 0 < dt) (hs : QSorted s.queue) (hr : RoundOK s.queue) :
    ∃ s', forward dt s = some s' ∧
      s'.time = s.time + dt ∧
      (∀ tk ∈ s'.queue, s.time + dt < tk.at') ∧
      ∃ nw, s'.log = s.log ++ nw ∧
        (∀ e ∈ nw, e.2 ≤ s.time + dt) ∧
        (nw.map Prod.snd).Pairwise (· ≤ ·) := by
  have hball : ∀ tk ∈ s.queue,
      (s.queue.map STask.at').foldr min (s.time + dt) ≤ tk.at' :=
    fun tk htk => foldr_min_le _ _ _ (List.mem_map.mpr ⟨tk, htk, rfl⟩)
  obtain ⟨hrem, nw, hlog, hbound, hpair⟩ :=
    runLoop_spec (s.time + dt) (potential s.queue) s.queue s.time
      ((s.queue.map STask.at').foldr min (s.time + dt)) s.log le_rfl hs hr hball
  refine ⟨⟨s.time + dt,
      (runLoop (s.time + dt) (potential s.queue) s.time s.queue s.log).2.1,
      (runLoop (s.time + dt) (potential s.queue) s.time s.queue s.log).2.2⟩,
    ?_, rfl, hrem, nw, hlog, fun e he => (hbound e he).2, hpair⟩
  unfold forward
  rw [if_neg (not_le.mpr hdt)]

/-- C2 (counterexample): two tasks with `t_a < t_b` need not execute in
temporal order.  Task 1 is scheduled first at `t_a = 0.50002` and task 2
second at `t_b = 0.50004`; task 2's insort key is the rounded 0.5, which is
below 0.50002, so task 2 is queued first, and `forward 1` executes task 2
(the later one) before task 1 — the queue is not kept ordered by the
rounded time either, since existing entries already carry their unrounded
times when a new task is inserted. -/
theorem schedule_order_inversion_cex :
    forward 1 (schedule (schedule ⟨0, [], []⟩ (50002/100000) 1 [])
        (50004/100000) 2 []) =
      some ⟨1, [], [(2, 50004/100000), (1, 50002/100000)]⟩ ∧
    ((50002 : ℚ)/100000 < 50004/100000) := by
  constructor
  · norm_num [forward, schedule, insortTask, bisectRight, bisectAux, insertAt,
      spawnAll, runLoop, potential, taskPot, round4, pyRoundInt]
  · norm_num

/-- C2 (amended): for task times that are exact at the 1e-4 scheduling
precision, temporal order is honoured regardless of the order of the two
`schedule` calls: with `0 < t_a < t_b ≤ dt`, both insertion orders produce
the queue `[a, b]` and `forward dt` executes `a` before `b`, each at its own
time; insertion order only breaks exact ties. -/
theorem schedule_temporal_order (ta tb dt : ℚ) (ida idb : ℕ)
    (hra : round4 ta = ta) (hrb : round4 tb = tb)
    (h0 : 0 < ta) (hab : ta < tb) (hbd : tb ≤ dt) :
    forward dt (schedule (schedule ⟨0, [], []⟩ ta ida []) tb idb []) =
      some ⟨dt, [], [(ida, ta), (idb, tb)]⟩ ∧
    forward dt (schedule (schedule ⟨0, [], []⟩ tb idb []) ta ida []) =
      some ⟨dt, [], [(ida, ta), (idb, tb)]⟩ := by
  have hdt : 0 < dt := by linarith
  have h1 : ta ≤ dt := by linarith
  have h2 : tb ≤ dt := by linarith
  have e1 : schedule ⟨0, [], []⟩ ta ida [] = ⟨0, [⟨ta, ida, []⟩], []⟩ := rfl
  have e1' : schedule ⟨0, [], []⟩ tb idb [] = ⟨0, [⟨tb, idb, []⟩], []⟩ := rfl
  have e2 : schedule ⟨0, [⟨ta, ida, []⟩], []⟩ tb idb [] =
      ⟨0, [⟨ta, ida, []⟩, ⟨tb, idb, []⟩], []⟩ := by
    unfold schedule insortTask bisectRight
    rw [hrb]
    norm_num [bisectAux, insertAt, not_lt.mpr (le_of_lt hab)]
  have e2' : schedule ⟨0, [⟨tb, idb, []⟩], []⟩ ta ida [] =
      ⟨0, [⟨ta, ida, []⟩, ⟨tb, idb, []⟩], []⟩ := by
    unfold schedule insortTask bisectRight
    rw [hra]
    norm_num [bisectAux, insertAt, hab]
  have e3 : forward dt ⟨0, [⟨ta, ida, []⟩, ⟨tb, idb, []⟩], []⟩ =
      some ⟨dt, [], [(ida, ta), (idb, tb)]⟩ := by
    unfold forward
    rw [if_neg (not_le.mpr hdt)]
    norm_num [runLoop, potential, taskPot, spawnAll, h1, h2]
  exact ⟨by rw [e1, e2, e3], by rw [e1', e2', e3]⟩

/-- C3: for two `Cmpt_Rgbas` with rgba arrays of different lengths,
`align_for_interpolate` is claimed to return two aligned copies of equal
length, the shorter side grown to the longer one.  The code violates this:
at the failing input `len1 = 2 > len2 = 1` the `elif` branch resizes
`cmpt1_copy` to its own length `len1` (a no-op) instead of growing
`cmpt2_copy`, so the two returned copies have lengths 2 and 1.  (The
`len1 < len2` branch, by contrast, does grow the shorter side, confirming
the slip in the mirrored branch.) -/
theorem rgbas_align_unequal_lengths :
    ((Cmpt.align_for_interpolate
        ⟨0, [((1:ℚ),1,1,1), ((0:ℚ),0,0,1)], none⟩
        ⟨1, [((1:ℚ),0,0,1)], none⟩ 10).1.1.data.length = 2) ∧
    ((Cmpt.align_for_interpolate
        ⟨0, [((1:ℚ),1,1,1), ((0:ℚ),0,0,1)], none⟩
        ⟨1, [((1:ℚ),0,0,1)], none⟩ 10).1.2.1.data.length = 1) ∧
    ((Cmpt.align_for_interpolate
        ⟨1, [((1:ℚ),0,0,1)], none⟩
        ⟨0, [((1:ℚ),1,1,1), ((0:ℚ),0,0,1)], none⟩ 10).1.1.data.length = 2) ∧
    ((Cmpt.align_for_interpolate
        ⟨1, [((1:ℚ),0,0,1)], none⟩
        ⟨0, [((1:ℚ),1,1,1), ((0:ℚ),0,0,1)], none⟩ 10).1.2.1.data.length = 2) := by
  refine ⟨?_, ?_, ?_, ?_⟩ <;>
    simp [Cmpt.align_for_interpolate, Cmpt.copy, Cmpt.resize, Cmpt.set_rgbas,
      Cmpt.resize_with_interpolation, List.range_succ]

/-- C7: running change detection twice at the same time with no intervening
mutation of the item records at most one new snapshot — the second
`_detect_change` is a no-op, because the `store()` snapshot recorded by the
first call reports `not_changed` against the item.  (The component keys of an
item form a Python dict, hence are duplicate-free.) -/
theorem detect_change_idempotent (item : MItem) (ih : ItemHist) (t : ℚ) (fresh : ℕ)
    (hnd : (item.data.cmpts.map Prod.fst).Nodup) :
    detectChange item (detectChange item ih t fresh).1 t (detectChange item ih t fresh).2
        = detectChange item ih t fresh ∧
      (detectChange item ih t fresh).1.histWoDyn.length ≤ ih.histWoDyn.length + 1 := by
  obtain ⟨d, ch⟩ := item
  by_cases hun : (match ih.histWoDyn.getLast? with
    | none => false
    | some r => decide (itemNotChanged r.data (MItem.node d ch) = some true)) = true
  · constructor
    · simp only [detectChange, hun, if_pos]
    · simp only [detectChange, hun, if_pos]
      omega
  · have h1 : detectChange (.node d ch) ih t fresh =
        (⟨record_as_time ih.hist t (MItem.store (.node d ch) fresh).1 false,
          record_as_time ih.histWoDyn t (MItem.store (.node d ch) fresh).1 false⟩,
         (MItem.store (.node d ch) fresh).2) := by
      simp only [detectChange, hun, if_neg, Bool.false_eq_true, not_false_iff]
    rw [h1]
    constructor
    · have hlast : (record_as_time ih.histWoDyn t (MItem.store (.node d ch) fresh).1
          false).getLast? = some ⟨t, (MItem.store (.node d ch) fresh).1⟩ := by
        rw [record_as_time_append]
        simp
      simp only [detectChange, hlast]
      rw [if_pos]
      simp only [decide_eq_true_eq]
      exact store_not_changed d ch fresh (by simpa [MItem.data] using hnd)
    · simp [record_as_time_append]

/-- C4 (counterexample): `become` is not no-op-safe for a component key
present on only one side — `self.components[key]` /
`other.components[key]` over the union of key sets raises `KeyError`.  Here
`self` owns only `depth` while `other` owns `depth` and `color`, and the
call fails (`none`) instead of leaving `self`'s state as-is. -/
theorem become_missing_key_cex :
    mbecome (.node ⟨0, 0, false, [], [("depth", ⟨1, [((1:ℚ),1,1,1)], none⟩)], []⟩ [])
            (.node ⟨1, 0, false, [], [("depth", ⟨2, [((1:ℚ),1,1,1)], none⟩),
                                      ("color", ⟨3, [((1:ℚ),1,1,1)], none⟩)], []⟩ [])
            10 = none := by
  simp [mbecome, becomeChildren, becomeCmpts, keysetEqb, lookupC, MItem.data]

/-- C4 (amended): when the two items' component key sets coincide (the case
for same-class items), `self.become(other)` succeeds, invokes the
component-level `become` for every key — afterwards each of self's
components carries `other`'s data for that key while keeping its own bind —
and never removes components from self (the key list is preserved). -/
theorem become_same_keys (d : ItemData) (other : MItem) (fresh : ℕ)
    (hkeys : keysetEqb d.cmpts other.data.cmpts = true) :
    ∃ r, mbecome (.node d []) other fresh = some r ∧
      (r.1.data.cmpts.map Prod.fst = d.cmpts.map Prod.fst) ∧
      (∀ k c c2, lookupC d.cmpts k = some c →
        lookupC other.data.cmpts k = some c2 →
        ∃ c', lookupC r.1.data.cmpts k = some c' ∧
          c'.data = c2.data ∧ c'.bind = c.bind) := by
  obtain ⟨od, och⟩ := other
  obtain ⟨l, g, hch⟩ := becomeChildren_nil och fresh
  have hcm : becomeCmpts d.cmpts od.cmpts g = some (becomeAll d.cmpts od.cmpts g) := by
    simp only [becomeCmpts, MItem.data] at hkeys ⊢
    rw [if_pos hkeys]
  refine ⟨(.node ⟨d.iid, d.typ, d.stored, d.storedChildren,
      (becomeAll d.cmpts od.cmpts g).1, d.mock⟩ l, (becomeAll d.cmpts od.cmpts g).2),
    ?_, ?_, ?_⟩
  · simp only [mbecome, hch, hcm]
  · simpa [MItem.data] using becomeAll_map_fst d.cmpts od.cmpts g
  · intro k c c2 hc hc2
    obtain ⟨c', hc', hbind, hdata⟩ := lookupC_becomeAll od.cmpts g hc
    simp only [MItem.data] at hc2 ⊢
    refine ⟨c', hc', ?_, hbind⟩
    simpa [hc2] using hdata

/-- C5: for aligned items (every key of `self` resolves on both sides with
equal-length rgba arrays, storage-sharing sides carrying equal data, and
matching child lists), `interpolate` is exact at the boundaries regardless
of the path function: at `alpha = 0` the produced state satisfies
`not_changed(item1)`, and at `alpha = 1` it satisfies `not_changed(item2)`. -/
theorem interpolate_boundary (self item1 item2 : MItem)
    (path_func : ℚ → ℚ → ℚ → ℚ) (fresh0 fresh1 : ℕ)
    (hch1 : childIds self = childIds item1)
    (hch2 : childIds self = childIds item2)
    (halign : ∀ k c, (k, c) ∈ self.data.cmpts →
      ∃ c1 c2, lookupC item1.data.cmpts k = some c1 ∧
        lookupC item2.data.cmpts k = some c2 ∧
        c1.data.length = c2.data.length ∧
        (c1.sid = c2.sid → c.data = c1.data ∧ c1.data = c2.data)) :
    (∃ r, itemInterpolate self item1 item2 0 path_func fresh0 = some r ∧
       itemNotChanged r.1 item1 = some true) ∧
    (∃ r, itemInterpolate self item1 item2 1 path_func fresh1 = some r ∧
       itemNotChanged r.1 item2 = some true) := by
  have hres : ∀ k c, (k, c) ∈ self.data.cmpts →
      (lookupC item1.data.cmpts k).isSome ∧ (lookupC item2.data.cmpts k).isSome := by
    intro k c hm
    obtain ⟨c1, c2, h1, h2, _, _⟩ := halign k c hm
    exact ⟨h1 ▸ rfl, h2 ▸ rfl⟩
  constructor
  · obtain ⟨out, g, hout, hprop⟩ :=
      interpCmpts_spec item1.data.cmpts item2.data.cmpts 0 path_func
        self.data.cmpts fresh0 hres
    refine ⟨(.node ⟨self.data.iid, self.data.typ, self.data.stored,
        self.data.storedChildren, out, self.data.mock⟩ self.children, g), ?_, ?_⟩
    · simp only [itemInterpolate, hout]
    · unfold itemNotChanged
      rw [if_neg, notChangedCmpts_of_data_eq]
      · intro k c' hm
        obtain ⟨c, c1, c2, hmem, h1, h2, hdata⟩ := hprop k c' hm
        obtain ⟨c1', c2', h1', h2', hlen, hsh⟩ := halign k c hmem
        rw [h1] at h1'
        rw [h2] at h2'
        injection h1' with h1'
        injection h2' with h2'
        subst h1'; subst h2'
        refine ⟨c1, h1, ?_⟩
        by_cases hs : c1.sid = c2.sid
        · rw [hdata, if_pos hs, (hsh hs).1]
        · rw [hdata, if_neg hs, lerpRows_zero _ _ hlen]
      · simp only [ne_eq, not_not, childIds, MItem.data, MItem.children] at hch1 ⊢
        exact hch1
  · obtain ⟨out, g, hout, hprop⟩ :=
      interpCmpts_spec item1.data.cmpts item2.data.cmpts 1 path_func
        self.data.cmpts fresh1 hres
    refine ⟨(.node ⟨self.data.iid, self.data.typ, self.data.stored,
        self.data.storedChildren, out, self.data.mock⟩ self.children, g), ?_, ?_⟩
    · simp only [itemInterpolate, hout]
    · unfold itemNotChanged
      rw [if_neg, notChangedCmpts_of_data_eq]
      · intro k c' hm
        obtain ⟨c, c1, c2, hmem, h1, h2, hdata⟩ := hprop k c' hm
        obtain ⟨c1', c2', h1', h2', hlen, hsh⟩ := halign k c hmem
        rw [h1] at h1'
        rw [h2] at h2'
        injection h1' with h1'
        injection h2' with h2'
        subst h1'; subst h2'
        refine ⟨c2, h2, ?_⟩
        by_cases hs : c1.sid = c2.sid
        · rw [hdata, if_pos hs, (hsh hs).1, (hsh hs).2]
        · rw [hdata, if_neg hs, lerpRows_one _ _ hlen]
      · simp only [ne_eq, not_not, childIds, MItem.data, MItem.children] at hch2 ⊢
        exact hch2

/-- C8 (counterexample): for an item `A` with a child, `B = A.copy()`
followed by `B.become(A)` does not make `A.not_changed(B)` true: the copied
child is a distinct object, and `Item.not_changed` compares the child lists
by object identity (`self.get_children() != other.get_children()`). -/
theorem become_roundtrip_children_cex :
    ((mbecome (MItem.copy false
        (.node ⟨0, 0, false, [], [("depth", ⟨5, [((1:ℚ),1,1,1)], some ⟨0,0,"depth"⟩⟩)], []⟩
          [.node ⟨1, 0, false, [], [], []⟩ []]) 10).1
        (.node ⟨0, 0, false, [], [("depth", ⟨5, [((1:ℚ),1,1,1)], some ⟨0,0,"depth"⟩⟩)], []⟩
          [.node ⟨1, 0, false, [], [], []⟩ []]) 20).map fun r =>
      itemNotChanged
        (.node ⟨0, 0, false, [], [("depth", ⟨5, [((1:ℚ),1,1,1)], some ⟨0,0,"depth"⟩⟩)], []⟩
          [.node ⟨1, 0, false, [], [], []⟩ []]) r.1)
      = some (some false) := by
  simp [MItem.copy, MItem.copyList, rebindCmpts, mbecome,
    becomeChildren, becomeCmpts, keysetEqb, lookupC, becomeAll,
    Cmpt.become, Cmpt.set_rgbas, itemNotChanged, childIds, MItem.data, MItem.children]

/-- C8 (amended): the round-trip holds for a childless item: for any item
`A` with no children (and duplicate-free component keys, as in a Python
dict), `B = A.copy()` followed by `B.become(A)` yields a `B` with
`A.not_changed(B)` true — every component of `B` carries `A`'s data again,
and there are no child objects whose identities could differ. -/
theorem become_roundtrip_childless (d : ItemData) (f g : ℕ)
    (hnd : (d.cmpts.map Prod.fst).Nodup) :
    ∃ r, mbecome (MItem.copy false (.node d []) f).1 (.node d []) g = some r ∧
      itemNotChanged (.node d []) r.1 = some true := by
  have hcopy : MItem.copy false (.node d []) f =
      (.node ⟨f, d.typ, d.stored, d.storedChildren, rebindCmpts d.cmpts f, []⟩ [], f + 1) := by
    simp [MItem.copy, MItem.copyList]
  have hkeys : keysetEqb (rebindCmpts d.cmpts f) d.cmpts = true :=
    keysetEqb_of_map_fst_eq (rebindCmpts_map_fst d.cmpts f)
  have hcm : becomeCmpts (rebindCmpts d.cmpts f) d.cmpts g =
      some (becomeAll (rebindCmpts d.cmpts f) d.cmpts g) := by
    simp only [becomeCmpts]
    rw [if_pos hkeys]
  refine ⟨(.node ⟨f, d.typ, d.stored, d.storedChildren,
      (becomeAll (rebindCmpts d.cmpts f) d.cmpts g).1, []⟩ [],
      (becomeAll (rebindCmpts d.cmpts f) d.cmpts g).2), ?_, ?_⟩
  · rw [hcopy]
    simp only [mbecome, becomeChildren, hcm]
  · unfold itemNotChanged
    rw [if_neg, notChangedCmpts_of_data_eq]
    · intro k c hm
      have hl : lookupC (rebindCmpts d.cmpts f) k =
          some ⟨c.sid, c.data, c.bind.map fun b => ⟨b.decl, f, k⟩⟩ := by
        rw [lookupC_rebindCmpts, lookupC_of_mem_nodup hnd hm]
        rfl
      obtain ⟨c', hc', hbind, hdata⟩ := lookupC_becomeAll d.cmpts g hl
      refine ⟨c', hc', ?_⟩
      rw [hdata, lookupC_of_mem_nodup hnd hm]
    · simp [childIds, MItem.data, MItem.children]

/-- C10: binding coherence — an item built by `_init_components` binds every
component to `BindInfo(decl_cls, self, key)` with `at_item` the item itself
and `key` the mapping key; and any `copy()` / `store()` (root_only) produces
a fresh item (id `fresh`, hence distinct from the source whenever the
counter is fresh) whose components are all rebound to the copy under their
mapping keys, with an empty astype mock-component cache. -/
theorem bind_coherence :
    (∀ selfId datas fresh k c, (k, c) ∈ (init_components selfId datas fresh).1 →
       ∃ dcl, c.bind = some ⟨dcl, selfId, k⟩ ∧ (k, dcl) ∈ datas) ∧
    (∀ (rootOnly : Bool) (it : MItem) (fresh : ℕ),
       (∀ k c, (k, c) ∈ it.data.cmpts → c.bind.isSome) →
       (MItem.copy rootOnly it fresh).1.data.iid = fresh ∧
       (MItem.copy rootOnly it fresh).1.data.mock = [] ∧
       (it.data.iid ≠ fresh → (MItem.copy rootOnly it fresh).1.data.iid ≠ it.data.iid) ∧
       (∀ k c, (k, c) ∈ (MItem.copy rootOnly it fresh).1.data.cmpts →
         ∃ dcl, c.bind = some ⟨dcl, fresh, k⟩)) := by
  constructor
  · intro selfId datas
    induction datas with
    | nil => intro fresh k c hm; simp [init_components] at hm
    | cons hd tl ih =>
      intro fresh k c hm
      obtain ⟨k0, dcl0⟩ := hd
      simp only [init_components] at hm
      rcases List.mem_cons.mp hm with h | h
      · injection h with h1 h2
        subst h1
        exact ⟨dcl0, by subst h2; rfl, List.mem_cons_self ..⟩
      · obtain ⟨dcl, hb, hmem⟩ := ih (fresh + 1) k c h
        exact ⟨dcl, hb, List.mem_cons_of_mem _ hmem⟩
  · intro rootOnly it fresh hsome
    obtain ⟨dd, ch⟩ := it
    have hmem : ∀ k c, (k, c) ∈ rebindCmpts dd.cmpts fresh →
        ∃ dcl, c.bind = some ⟨dcl, fresh, k⟩ := by
      intro k c hm
      obtain ⟨c0, hm0, _, _, hb⟩ := mem_rebindCmpts hm
      obtain ⟨b, hbs⟩ := Option.isSome_iff_exists.mp (hsome k c0 hm0)
      exact ⟨b.decl, by rw [hb, hbs]; rfl⟩
    cases rootOnly <;>
      refine ⟨by simp [MItem.copy, MItem.data], by simp [MItem.copy, MItem.data], ?_, ?_⟩ <;>
      try exact fun hne => by simpa [MItem.copy, MItem.data] using fun hh => hne hh.symm
    · intro k c hm
      exact hmem k c (by simpa [MItem.copy, MItem.data] using hm)
    · intro k c hm
      exact hmem k c (by simpa [MItem.copy, MItem.data] using hm)

-- itemCurrent splits into its pure result and the defaultdict side effect.
theorem itemCurrent_eq (s : TLState) (item : MItem) (a c : Option ℚ) (k : Bool) :
    itemCurrent s item a c k =
      (resolveItem (getIH s item.data.iid).1 item a c k, (getIH s item.data.iid).2) := by
  cases k with
  | false =>
    by_cases he : (getIH s item.data.iid).1.hist.isEmpty
    · simp [itemCurrent, resolveItem, he]
    · cases hor : a.orElse fun _ => c with
      | none => simp [itemCurrent, resolveItem, he, hor]
      | some t =>
        cases hg : historyGet (getIH s item.data.iid).1.hist t with
        | none => simp [itemCurrent, resolveItem, he, hor, hg]
        | some e => cases e <;> simp [itemCurrent, resolveItem, he, hor, hg]
  | true =>
    by_cases he : (getIH s item.data.iid).1.histWoDyn.isEmpty
    · simp [itemCurrent, resolveItem, he]
    · cases hor : a.orElse fun _ => c with
      | none => simp [itemCurrent, resolveItem, he, hor]
      | some t => simp [itemCurrent, resolveItem, he, hor]

-- The defaultdict side effect never changes which history a later lookup
-- sees.
theorem getIH_fst_stable (s : TLState) (j i : ℕ) :
    (getIH (getIH s j).2 i).1 = (getIH s i).1 := by
  unfold getIH
  cases hj : s.itemsHistory.find? (fun p => p.1 = j) with
  | some p => rfl
  | none =>
    simp only
    rw [List.find?_append]
    cases hi : s.itemsHistory.find? (fun p => p.1 = i) with
    | some p => rfl
    | none =>
      simp only [Option.none_or]
      by_cases hij : j = i
      · subst hij
        simp
      · simp [List.find?, hij]

/-- C6: showing an item at `current_time = 2` and hiding it at
`current_time = 5` produces exactly one Display span `[2, 5)`; re-showing
the already-visible item at any time is a no-op that keeps the original
shown-at time; and hiding the now-invisible item again is a no-op producing
no additional span. -/
theorem show_hide_span (s : DispState) (X : ℕ)
    (htime : s.time = 2)
    (hX : s.displayTimes.find? (fun p => p.1 = X) = none) :
    tlShow s X = { s with displayTimes := s.displayTimes ++ [(X, 2)] } ∧
    (∀ t' : ℚ, tlShow { tlShow s X with time := t' } X = { tlShow s X with time := t' }) ∧
    tlHide { tlShow s X with time := 5 } X =
      { time := 5, displayTimes := s.displayTimes,
        displayAnims := s.displayAnims ++ [(X, 2, 5)] } ∧
    tlHide { time := 5, displayTimes := s.displayTimes,
             displayAnims := s.displayAnims ++ [(X, 2, 5)] } X =
      { time := 5, displayTimes := s.displayTimes,
        displayAnims := s.displayAnims ++ [(X, 2, 5)] } := by
  have hfilter : s.displayTimes.filter (fun q => q.1 ≠ X) = s.displayTimes := by
    rw [List.filter_eq_self]
    intro a ha
    have := List.find?_eq_none.mp hX a ha
    simpa using this
  have hshow : tlShow s X = { s with displayTimes := s.displayTimes ++ [(X, 2)] } := by
    unfold tlShow
    rw [hX, htime]
  have hfind2 : (s.displayTimes ++ [(X, (2 : ℚ))]).find? (fun p => p.1 = X)
      = some (X, 2) := by
    rw [List.find?_append, hX]
    simp [List.find?]
  refine ⟨hshow, ?_, ?_, ?_⟩
  · intro t'
    rw [hshow]
    unfold tlShow
    simp only
    rw [hfind2]
  · rw [hshow]
    unfold tlHide
    simp only
    rw [hfind2]
    simp only [List.filter_append, hfilter]
    congr 1
    simp [List.filter]
  · unfold tlHide
    simp only
    rw [hX]

/-- C9 (counterexample): resolving an untracked item's state after build is
not mutation-free — `item_current` subscripts the `items_history`
defaultdict, which inserts a fresh empty `ItemHistory` for the item, growing
the mapping from 0 to 1 entries. -/
theorem item_current_mutates_cex :
    (itemCurrent ⟨[]⟩ (.node ⟨0, 0, false, [], [], []⟩ []) none none
        false).2.itemsHistory.length = 1 ∧
    (⟨[]⟩ : TLState).itemsHistory.length = 0 := by
  constructor
  · simp [itemCurrent, getIH, MItem.data]
  · rfl

/-- C9 (amended): `item_current` queries are pure in their results — a query
returns the same resolved item no matter which other queries (at any times,
in any order) ran before it, and no query alters any recorded history entry
of a tracked item; the only state effect is that querying an untracked item
inserts a fresh empty `ItemHistory` into the `items_history` defaultdict. -/
theorem item_current_pure_results (s : TLState) (i1 i2 : MItem)
    (a1 c1 a2 c2 : Option ℚ) (k1 k2 : Bool) :
    (itemCurrent (itemCurrent s i1 a1 c1 k1).2 i2 a2 c2 k2).1
        = (itemCurrent s i2 a2 c2 k2).1 ∧
    (∀ iid h, s.itemsHistory.find? (fun p => p.1 = iid) = some h →
      (itemCurrent s i1 a1 c1 k1).2.itemsHistory.find? (fun p => p.1 = iid)
        = some h) := by
  constructor
  · rw [itemCurrent_eq, itemCurrent_eq, itemCurrent_eq]
    simp only
    rw [getIH_fst_stable]
  · intro iid h hfind
    rw [itemCurrent_eq]
    simp only
    unfold getIH
    cases hj : s.itemsHistory.find? (fun p => p.1 = i1.data.iid) with
    | some p => exact hfind
    | none =>
      simp only
      rw [List.find?_append, hfind]
      rfl

/-! ## Witnesses -/

/-- Witness for C1's amended theorem at a concrete satisfiable input: one
pending task at time 1/2 which schedules a task at time 1 while running. -/
theorem forward_executes_all_due_witness :
    ∃ s', forward 1 ⟨0, [⟨1/2, 7, [(1, 9)]⟩], []⟩ = some s' ∧
      s'.time = (0 : ℚ) + 1 ∧
      (∀ tk ∈ s'.queue, (0 : ℚ) + 1 < tk.at') ∧
      ∃ nw, s'.log = ([] : List (ℕ × ℚ)) ++ nw ∧
        (∀ e ∈ nw, e.2 ≤ (0 : ℚ) + 1) ∧
        (nw.map Prod.snd).Pairwise (· ≤ ·) :=
  forward_executes_all_due 1 ⟨0, [⟨1/2, 7, [(1, 9)]⟩], []⟩ (by norm_num)
    (by simp [QSorted])
    (by
      intro tk htk
      simp only [List.mem_singleton] at htk
      subst htk
      refine ⟨by norm_num [round4, pyRoundInt], ?_⟩
      intro p hp
      simp only [List.mem_singleton] at hp
      subst hp
      exact ⟨by norm_num [round4, pyRoundInt], by norm_num⟩)

/-- Witness for C2's amended theorem with `t_a = 1/2`, `t_b = 1`, `dt = 2`. -/
theorem schedule_temporal_order_witness :
    forward 2 (schedule (schedule ⟨0, [], []⟩ (1/2) 1 []) 1 2 []) =
      some ⟨2, [], [(1, 1/2), (2, 1)]⟩ ∧
    forward 2 (schedule (schedule ⟨0, [], []⟩ 1 2 []) (1/2) 1 []) =
      some ⟨2, [], [(1, 1/2), (2, 1)]⟩ :=
  schedule_temporal_order (1/2) 1 2 1 2
    (by norm_num [round4, pyRoundInt]) (by norm_num [round4, pyRoundInt])
    (by norm_num) (by norm_num) (by norm_num)

/-- Witness for C4's amended theorem: two single-key items with the same
component key set. -/
theorem become_same_keys_witness :
    ∃ r, mbecome (.node ⟨0, 0, false, [], [("depth", ⟨1, [((1:ℚ),1,1,1)], none⟩)], []⟩ [])
        (.node ⟨1, 0, false, [], [("depth", ⟨2, [((0:ℚ),0,0,1)], none⟩)], []⟩ []) 5
        = some r ∧
      (r.1.data.cmpts.map Prod.fst =
        ([("depth", (⟨1, [((1:ℚ),1,1,1)], none⟩ : Cmpt))].map Prod.fst)) ∧
      (∀ k c c2,
        lookupC [("depth", (⟨1, [((1:ℚ),1,1,1)], none⟩ : Cmpt))] k = some c →
        lookupC (MItem.node ⟨1, 0, false, [],
          [("depth", ⟨2, [((0:ℚ),0,0,1)], none⟩)], []⟩ []).data.cmpts k = some c2 →
        ∃ c', lookupC r.1.data.cmpts k = some c' ∧
          c'.data = c2.data ∧ c'.bind = c.bind) :=
  become_same_keys ⟨0, 0, false, [], [("depth", ⟨1, [((1:ℚ),1,1,1)], none⟩)], []⟩
    (.node ⟨1, 0, false, [], [("depth", ⟨2, [((0:ℚ),0,0,1)], none⟩)], []⟩ []) 5
    (by simp [keysetEqb, lookupC, MItem.data])

/-- Witness for C5 at a concrete aligned pair: one shared key with
equal-length (one-row) rgba data on distinct storages. -/
theorem interpolate_boundary_witness :
    (∃ r, itemInterpolate
        (.node ⟨0, 0, false, [], [("fill", ⟨0, [((1:ℚ),1,1,1)], none⟩)], []⟩ [])
        (.node ⟨1, 0, false, [], [("fill", ⟨1, [((0:ℚ),0,0,0)], none⟩)], []⟩ [])
        (.node ⟨2, 0, false, [], [("fill", ⟨2, [((1:ℚ),0,0,1)], none⟩)], []⟩ [])
        0 (fun _ _ x => x) 10 = some r ∧
      itemNotChanged r.1
        (.node ⟨1, 0, false, [], [("fill", ⟨1, [((0:ℚ),0,0,0)], none⟩)], []⟩ [])
        = some true) ∧
    (∃ r, itemInterpolate
        (.node ⟨0, 0, false, [], [("fill", ⟨0, [((1:ℚ),1,1,1)], none⟩)], []⟩ [])
        (.node ⟨1, 0, false, [], [("fill", ⟨1, [((0:ℚ),0,0,0)], none⟩)], []⟩ [])
        (.node ⟨2, 0, false, [], [("fill", ⟨2, [((1:ℚ),0,0,1)], none⟩)], []⟩ [])
        1 (fun _ _ x => x) 20 = some r ∧
      itemNotChanged r.1
        (.node ⟨2, 0, false, [], [("fill", ⟨2, [((1:ℚ),0,0,1)], none⟩)], []⟩ [])
        = some true) :=
  interpolate_boundary
    (.node ⟨0, 0, false, [], [("fill", ⟨0, [((1:ℚ),1,1,1)], none⟩)], []⟩ [])
    (.node ⟨1, 0, false, [], [("fill", ⟨1, [((0:ℚ),0,0,0)], none⟩)], []⟩ [])
    (.node ⟨2, 0, false, [], [("fill", ⟨2, [((1:ℚ),0,0,1)], none⟩)], []⟩ [])
    (fun _ _ x => x) 10 20 rfl rfl
    (by
      intro k c hm
      simp only [MItem.data, List.mem_singleton] at hm
      injection hm with h1 h2
      subst h1
      refine ⟨⟨1, [((0:ℚ),0,0,0)], none⟩, ⟨2, [((1:ℚ),0,0,1)], none⟩, rfl, rfl, rfl, ?_⟩
      intro hsh
      simp at hsh)

/-- Witness for C6 at the literal state of the claim: nothing shown,
`current_time = 2`. -/
theorem show_hide_span_witness :
    tlShow ⟨2, [], []⟩ 0 = { (⟨2, [], []⟩ : DispState) with
      displayTimes := ([] : List (ℕ × ℚ)) ++ [(0, 2)] } ∧
    (∀ t' : ℚ, tlShow { tlShow ⟨2, [], []⟩ 0 with time := t' } 0 =
      { tlShow ⟨2, [], []⟩ 0 with time := t' }) ∧
    tlHide { tlShow ⟨2, [], []⟩ 0 with time := 5 } 0 =
      { time := 5, displayTimes := [], displayAnims := ([] : List (ℕ × ℚ × ℚ)) ++ [(0, 2, 5)] } ∧
    tlHide { time := 5, displayTimes := ([] : List (ℕ × ℚ)),
             displayAnims := ([] : List (ℕ × ℚ × ℚ)) ++ [(0, 2, 5)] } 0 =
      { time := 5, displayTimes := [], displayAnims := ([] : List (ℕ × ℚ × ℚ)) ++ [(0, 2, 5)] } :=
  show_hide_span ⟨2, [], []⟩ 0 rfl rfl

/-- Witness for C7 at a concrete single-component item with empty history. -/
theorem detect_change_idempotent_witness :
    detectChange (.node ⟨0, 0, false, [], [("depth", ⟨1, [((1:ℚ),1,1,1)], none⟩)], []⟩ [])
        (detectChange (.node ⟨0, 0, false, [], [("depth", ⟨1, [((1:ℚ),1,1,1)], none⟩)], []⟩ [])
          ⟨[], []⟩ 0 5).1 0
        (detectChange (.node ⟨0, 0, false, [], [("depth", ⟨1, [((1:ℚ),1,1,1)], none⟩)], []⟩ [])
          ⟨[], []⟩ 0 5).2
      = detectChange (.node ⟨0, 0, false, [], [("depth", ⟨1, [((1:ℚ),1,1,1)], none⟩)], []⟩ [])
          ⟨[], []⟩ 0 5 ∧
    (detectChange (.node ⟨0, 0, false, [], [("depth", ⟨1, [((1:ℚ),1,1,1)], none⟩)], []⟩ [])
        ⟨[], []⟩ 0 5).1.histWoDyn.length ≤ ([] : List HRecord).length + 1 :=
  detect_change_idempotent
    (.node ⟨0, 0, false, [], [("depth", ⟨1, [((1:ℚ),1,1,1)], none⟩)], []⟩ [])
    ⟨[], []⟩ 0 5 (by simp [MItem.data])

/-- Witness for C8's amended theorem at a concrete childless item. -/
theorem become_roundtrip_childless_witness :
    ∃ r, mbecome
        (MItem.copy false
          (.node ⟨0, 0, false, [], [("depth", ⟨1, [((1:ℚ),1,1,1)], none⟩)], []⟩ []) 10).1
        (.node ⟨0, 0, false, [], [("depth", ⟨1, [((1:ℚ),1,1,1)], none⟩)], []⟩ []) 20
        = some r ∧
      itemNotChanged
        (.node ⟨0, 0, false, [], [("depth", ⟨1, [((1:ℚ),1,1,1)], none⟩)], []⟩ []) r.1
        = some true :=
  become_roundtrip_childless ⟨0, 0, false, [], [("depth", ⟨1, [((1:ℚ),1,1,1)], none⟩)], []⟩
    10 20 (by simp)

/-- Witness for C9's amended theorem: one tracked item (id 0), queried
alongside an untracked item (id 1). -/
theorem item_current_pure_results_witness :
    (itemCurrent (itemCurrent ⟨[(0, ⟨[], []⟩)]⟩ (.node ⟨1, 0, false, [], [], []⟩ [])
        none none false).2 (.node ⟨0, 0, false, [], [], []⟩ []) none none false).1
      = (itemCurrent ⟨[(0, ⟨[], []⟩)]⟩ (.node ⟨0, 0, false, [], [], []⟩ [])
        none none false).1 ∧
    (∀ iid h, ([(0, (⟨[], []⟩ : ItemHist9))]).find? (fun p => p.1 = iid) = some h →
      (itemCurrent ⟨[(0, ⟨[], []⟩)]⟩ (.node ⟨1, 0, false, [], [], []⟩ [])
        none none false).2.itemsHistory.find? (fun p => p.1 = iid) = some h) :=
  item_current_pure_results ⟨[(0, ⟨[], []⟩)]⟩ (.node ⟨1, 0, false, [], [], []⟩ [])
    (.node ⟨0, 0, false, [], [], []⟩ []) none none none none false false

/-- Witness for C10: one declared component, and a store() of an item whose
single component is bound. -/
theorem bind_coherence_witness :
    (∃ dcl, (⟨0, [((1:ℚ),1,1,1)], some ⟨7, 3, "depth"⟩⟩ : Cmpt).bind
        = some ⟨dcl, 3, "depth"⟩ ∧ ("depth", dcl) ∈ [("depth", 7)]) ∧
    ((MItem.copy true
        (.node ⟨9, 0, false, [], [("depth", ⟨0, [((1:ℚ),1,1,1)], some ⟨7, 9, "depth"⟩⟩)], []⟩ [])
        42).1.data.iid = 42 ∧
      (MItem.copy true
        (.node ⟨9, 0, false, [], [("depth", ⟨0, [((1:ℚ),1,1,1)], some ⟨7, 9, "depth"⟩⟩)], []⟩ [])
        42).1.data.mock = [] ∧
      ((MItem.node ⟨9, 0, false, [], [("depth", ⟨0, [((1:ℚ),1,1,1)], some ⟨7, 9, "depth"⟩⟩)], []⟩
          []).data.iid ≠ 42 →
        (MItem.copy true
          (.node ⟨9, 0, false, [], [("depth", ⟨0, [((1:ℚ),1,1,1)], some ⟨7, 9, "depth"⟩⟩)], []⟩ [])
          42).1.data.iid ≠
          (MItem.node ⟨9, 0, false, [],
            [("depth", ⟨0, [((1:ℚ),1,1,1)], some ⟨7, 9, "depth"⟩⟩)], []⟩ []).data.iid) ∧
      (∀ k c, (k, c) ∈ (MItem.copy true
          (.node ⟨9, 0, false, [], [("depth", ⟨0, [((1:ℚ),1,1,1)], some ⟨7, 9, "depth"⟩⟩)], []⟩ [])
          42).1.data.cmpts →
        ∃ dcl, c.bind = some ⟨dcl, 42, k⟩)) :=
  ⟨bind_coherence.1 3 [("depth", 7)] 0 "depth"
      ⟨0, [((1:ℚ),1,1,1)], some ⟨7, 3, "depth"⟩⟩ (by simp [init_components]),
   bind_coherence.2 true
     (.node ⟨9, 0, false, [], [("depth", ⟨0, [((1:ℚ),1,1,1)], some ⟨7, 9, "depth"⟩⟩)], []⟩ [])
     42
     (by
       intro k c hm
       simp only [MItem.data, List.mem_singleton] at hm
       injection hm with h1 h2
       subst h2
       rfl)⟩

end JanimModel
